import Mathlib

/-!
Shallow embedding of the attendance-extraction backend
(`backend/extractor.py` together with the configuration surface of
`backend/config_schema.py`).

Modelling conventions:
* Python strings are modelled as `List Char` (`Str`); Python character
  indexing and slicing act on code points, exactly as `List.take`/`drop`.
* Python floats (confidence scores, box coordinates) are modelled as `ℚ`;
  the program only compares, adds, halves and scales them.
* The regular expressions of the source are specialised to what the code
  builds: the identifier search pattern `re.escape(prefix) + r"\d+"` is a
  literal-prefix-then-digit-run search (`idSearch`), `re.sub(r"\D", ...)`
  is a digit filter, `re.sub(r"[()]", ...)` removes parentheses, and
  `re.split(r"\s+|　", ...)` splits on whitespace runs.  `\d` is modelled
  as the ASCII digits and `\s` by the whitespace characters that occur in
  this domain (ASCII whitespace and the ideographic space U+3000).
* The compiled `name_exclusion_pattern` is modelled by its observable
  behaviour: an optional search predicate on token content.
-/

abbrev Str := List Char

/-- Coerce a Lean string literal to the `List Char` model. -/
def str (s : String) : Str := s.data

/-- Whitespace recognised by Python `str.strip` / `\s` (restricted to the
characters that occur in this domain: ASCII whitespace and U+3000). -/
def pyIsSpace (c : Char) : Bool :=
  c = ' ' || c = '\t' || c = '\n' || c = '\r' || c = '\x0b' || c = '\x0c' || c = '　'

/-- Python `str.strip()`: drop whitespace from both ends. -/
def pyStrip (s : Str) : Str :=
  ((s.dropWhile pyIsSpace).reverse.dropWhile pyIsSpace).reverse

/-!
Executable rational arithmetic.  Mathlib's `Rat` operations are
`@[irreducible]`, which blocks kernel evaluation of concrete instances of
the extractor; the embedding therefore computes with the following
`mkRat`-based operations, each proved equal to the standard one
(`qadd_eq`, `qsub_eq`, `qmul_eq`, `qdiv2_eq`, `qabs_eq`, `qmin_eq`,
`qmax_eq`, `qdivN_eq`), so every theorem can be stated with the ordinary
`ℚ` operations the Python source uses.
-/

/-- Executable `a + b` on `ℚ`. -/
def qadd (a b : ℚ) : ℚ := mkRat (a.num * b.den + b.num * a.den) (a.den * b.den)

/-- Executable `a - b` on `ℚ`. -/
def qsub (a b : ℚ) : ℚ := mkRat (a.num * b.den - b.num * a.den) (a.den * b.den)

/-- Executable `a * b` on `ℚ`. -/
def qmul (a b : ℚ) : ℚ := mkRat (a.num * b.num) (a.den * b.den)

/-- Executable `a / 2` on `ℚ`. -/
def qdiv2 (a : ℚ) : ℚ := mkRat a.num (a.den * 2)

/-- Executable `|a|` on `ℚ`. -/
def qabs (a : ℚ) : ℚ := mkRat a.num.natAbs a.den

/-- Executable `min a b` on `ℚ`. -/
def qmin (a b : ℚ) : ℚ := if a ≤ b then a else b

/-- Executable `max a b` on `ℚ`. -/
def qmax (a b : ℚ) : ℚ := if a ≤ b then b else a

/-- Executable `(m : ℚ) / (n : ℚ)` for naturals. -/
def qdivN (m n : ℕ) : ℚ := mkRat m n

/-- One 2-D corner point of an OCR bounding quadrilateral. -/
structure Point where
  x : ℚ
  y : ℚ
deriving DecidableEq

/-- `WordPrediction.points`: exactly four corner points, in the documented
consistent winding order top-left, top-right, bottom-right, bottom-left. -/
structure Quad where
  p0 : Point
  p1 : Point
  p2 : Point
  p3 : Point
deriving DecidableEq

/-- One OCR token (`yomitoku` `WordPrediction` as consumed by the core):
recognised text, recognition confidence, bounding quadrilateral. -/
structure WordPrediction where
  content : Str
  rec_score : ℚ
  points : Quad
deriving DecidableEq

/-- Output record (`StudentInfo`).  The optional `file_name` is modelled as a
plain string (the extractor always stores the caller-supplied value). -/
structure StudentInfo where
  student_id_full : Str
  student_id_num : Str
  surname : Str
  name : Str
  full_name : Str
  confidence : ℚ
  file_name : Str
deriving DecidableEq

/-- `AttendCheckConfig`, with the compiled `name_exclusion_pattern` modelled
as an optional search predicate (`None` compiles to no exclusion check).
`student_id_pre` models the source field `student_id_prefix`. -/
structure AttendCheckConfig where
  student_id_pattern : Str
  student_id_pre : Str
  name_exclusion_search : Option (Str → Bool)
  confidence_threshold : ℚ

/-- Does the search pattern `escape(pre) ++ \d+` match at the head of `s`?
If so, return the (greedy) matched text. -/
def matchHere (pre s : Str) : Option Str :=
  if pre.isPrefixOf s then
    let ds := (s.drop pre.length).takeWhile Char.isDigit
    if ds.isEmpty then none else some (pre ++ ds)
  else none

/-- Leftmost match of the identifier search pattern in `s`, starting the scan
at offset `i`: `re.search` semantics for `re.compile(rf"({escaped}\d+)")`. -/
def searchIdFrom (pre : Str) (s : Str) (i : Nat) : Option (Nat × Str) :=
  match matchHere pre s with
  | some m => some (i, m)
  | none =>
    match s with
    | [] => none
    | _ :: t => searchIdFrom pre t (i + 1)

/-- `id_search_pattern.search(content)`: returns match start offset and the
matched identifier text, if any. -/
def idSearch (pre : Str) (s : Str) : Option (Nat × Str) :=
  searchIdFrom pre s 0

/-- `Extractor.extract` candidate collection loop: every word whose content
contains an identifier match and whose confidence reaches the threshold,
paired with the match (start offset, matched text), in token scan order. -/
def candidatesOf (pre : Str) (thr : ℚ) (words : List WordPrediction) :
    List (WordPrediction × Nat × Str) :=
  words.filterMap fun w =>
    match idSearch pre w.content with
    | some im => if thr ≤ w.rec_score then some (w, im.1, im.2) else none
    | none => none

/-- `id_cy = (id_box[0][1] + id_box[2][1]) / 2`. -/
def vCenter (q : Quad) : ℚ := qdiv2 (qadd q.p0.y q.p2.y)

/-- `id_height = abs(id_box[2][1] - id_box[0][1])`. -/
def boxHeight (q : Quad) : ℚ := qabs (qsub q.p2.y q.p0.y)

/-- `min(p[0] for p in box)`. -/
def leftX (q : Quad) : ℚ := qmin (qmin (qmin q.p0.x q.p1.x) q.p2.x) q.p3.x

/-- `max(p[0] for p in box)`. -/
def rightX (q : Quad) : ℚ := qmax (qmax (qmax q.p0.x q.p1.x) q.p2.x) q.p3.x

/-- Python `needle in hay` substring containment. -/
def isSubstrOf (needle : Str) : Str → Bool
  | [] => needle.isPrefixOf []
  | c :: t => needle.isPrefixOf (c :: t) || isSubstrOf needle t

/-- `self.name_exclusion_pattern and self.name_exclusion_pattern.search(...)`. -/
def exclMatches (excl : Option (Str → Bool)) (s : Str) : Bool :=
  match excl with
  | some f => f s
  | none => false

/-- The per-word candidate test of `_find_name_at_left`: skip the identifier
word itself, excluded content, and identifier-bearing content; keep a word
exactly when it is vertically aligned with, and strictly to the left of,
the identifier box.  Returns the word paired with its rightmost x. -/
def nameCandTest (excl : Option (Str → Bool)) (pre : Str)
    (idWord w : WordPrediction) : Option (WordPrediction × ℚ) :=
  if w = idWord then none
  else if exclMatches excl w.content then none
  else if pre ≠ [] ∧ isSubstrOf pre w.content then none
  else if qabs (qsub (vCenter w.points) (vCenter idWord.points)) < qmul (boxHeight idWord.points) (mkRat 8 10) then
    if rightX w.points < leftX idWord.points then some (w, rightX w.points) else none
  else none

/-- Candidate collection loop of `_find_name_at_left`. -/
def nameCandidates (excl : Option (Str → Bool)) (pre : Str)
    (idWord : WordPrediction) (allWords : List WordPrediction) :
    List (WordPrediction × ℚ) :=
  allWords.filterMap (nameCandTest excl pre idWord)

/-- Stable descending insertion by the paired rightmost-x key: models
`candidates.sort(key=lambda x: x[1], reverse=True)` (Python's sort is
stable; so is this insertion). -/
def insertDescX (a : WordPrediction × ℚ) :
    List (WordPrediction × ℚ) → List (WordPrediction × ℚ)
  | [] => [a]
  | b :: t => if b.2 < a.2 then a :: b :: t else b :: insertDescX a t

/-- `candidates.sort(key=lambda x: x[1], reverse=True)`. -/
def sortDescX (l : List (WordPrediction × ℚ)) : List (WordPrediction × ℚ) :=
  l.foldr insertDescX []

/-- The greedy accumulation loop of `_find_name_at_left`: walk the sorted
candidates, stop on a gap larger than five box heights, prepend content,
advance the boundary to the word's leftmost x, stop at two parts. -/
def accumNames (idH : ℚ) :
    List (WordPrediction × ℚ) → ℚ → List Str → List Str
  | [], _, parts => parts
  | (w, x) :: rest, lastX, parts =>
    if qsub lastX x > qmul idH 5 then parts
    else
      let parts2 := w.content :: parts
      if parts2.length ≥ 2 then parts2
      else accumNames idH rest (leftX w.points) parts2

/-- `" ".join(parts)`. -/
def joinSpace : List Str → Str
  | [] => []
  | [p] => p
  | p :: q :: rest => p ++ ' ' :: joinSpace (q :: rest)

/-- `Extractor._find_name_at_left`. -/
def findNameAtLeft (excl : Option (Str → Bool)) (pre : Str)
    (idWord : WordPrediction) (allWords : List WordPrediction) : Str :=
  joinSpace (accumNames (boxHeight idWord.points)
    (sortDescX (nameCandidates excl pre idWord allWords))
    (leftX idWord.points) [])

/-- The embedded-name computation of `Extractor.extract`: content before the
match start, stripped; one trailing opening parenthesis stripped and the
result re-stripped. -/
def embeddedPre (content : Str) (i : Nat) : Str :=
  let clean := pyStrip (content.take i)
  if clean ≠ [] ∧ clean.getLast? = some '(' then pyStrip clean.dropLast else clean

/-- The raw-name decision of `Extractor.extract`: the embedded name when
non-empty, otherwise the spatial left search. -/
def rawNameOf (excl : Option (Str → Bool)) (pre : Str)
    (w : WordPrediction) (i : Nat) (allWords : List WordPrediction) : Str :=
  if embeddedPre w.content i ≠ [] then embeddedPre w.content i
  else findNameAtLeft excl pre w allWords

/-- `clean = re.sub(r"[()]", "", raw_name.strip())`. -/
def cleanName (raw : Str) : Str :=
  (pyStrip raw).filter fun c => !(c = '(' || c = ')')

/-- `sum(1 for c in clean if c.isalpha() and c.isascii())` (ASCII letters). -/
def asciiAlphaCount (s : Str) : Nat :=
  (s.filter fun c => c.isAlpha).length

/-- `is_alpha = (alpha_count / total_len) > 0.5 if total_len > 0 else False`. -/
def isAlphaName (s : Str) : Bool :=
  if s.length > 0 then
    decide (qdivN (asciiAlphaCount s) s.length > mkRat 1 2)
  else false

/-- Accumulator form of whitespace splitting: `re.split(r"\s+|　", clean)`
followed by dropping empty segments (the source filters them out). -/
def wordsAux (cur : Str) : Str → List Str
  | [] => if cur.isEmpty then [] else [cur.reverse]
  | c :: t =>
    if pyIsSpace c then
      if cur.isEmpty then wordsAux [] t else cur.reverse :: wordsAux [] t
    else wordsAux (c :: cur) t

/-- `parts = [p for p in re.split(r"\s+|　", clean) if p]`. -/
def wordsWS (s : Str) : List Str := wordsAux [] s

/-- `"".join(parts)`. -/
def joinAll (l : List Str) : Str := l.flatten

/-- `Extractor._parse_name`. -/
def parseName (raw : Str) : Str × Str × Str :=
  if (cleanName raw).isEmpty then ([], [], [])
  else if isAlphaName (cleanName raw) then ([], [], cleanName raw)
  else
    match wordsWS (cleanName raw) with
    | p :: q :: rest => (p, joinAll (q :: rest), p ++ ' ' :: joinAll (q :: rest))
    | _ => ([], [], cleanName raw)

/-- The record-building loop of `Extractor.extract`: walk the candidates,
skip identifiers already seen, build one `StudentInfo` per fresh
identifier. -/
def extractLoop (excl : Option (Str → Bool)) (pre : Str) (fname : Str)
    (allWords : List WordPrediction) :
    List (WordPrediction × Nat × Str) → List Str → List StudentInfo
  | [], _ => []
  | (w, i, m) :: rest, seen =>
    if m ∈ seen then extractLoop excl pre fname allWords rest seen
    else
      { student_id_full := m
        student_id_num := m.filter Char.isDigit
        surname := (parseName (rawNameOf excl pre w i allWords)).1
        name := (parseName (rawNameOf excl pre w i allWords)).2.1
        full_name := (parseName (rawNameOf excl pre w i allWords)).2.2
        confidence := w.rec_score
        file_name := fname } ::
      extractLoop excl pre fname allWords rest (m :: seen)

/-- `Extractor.extract` on a token snapshot. -/
def extract (cfg : AttendCheckConfig) (words : List WordPrediction)
    (fname : Str) : List StudentInfo :=
  extractLoop cfg.name_exclusion_search cfg.student_id_pre fname words
    (candidatesOf cfg.student_id_pre cfg.confidence_threshold words) []

/-- The default `name_exclusion_pattern` character class
`[!@#$%^&*(),.?":\x7b\x7d|<>]` as a search predicate. -/
def defaultExclSearch : Str → Bool := fun s =>
  s.any fun c => (str "!@#$%^&*(),.?\":\x7b\x7d|<>").contains c

/-- Reference description of first-occurrence deduplication (first-seen
identifier wins, later duplicates dropped, order of first occurrences
preserved), used to state the output-order invariant. -/
def firstDedupAux (seen : List Str) : List Str → List Str
  | [] => []
  | x :: t => if x ∈ seen then firstDedupAux seen t else x :: firstDedupAux (x :: seen) t

/-- First-occurrence deduplication of a list of identifier strings. -/
def firstDedup (l : List Str) : List Str := firstDedupAux [] l

/-- Modelled from the spec (claim C6 wording): the vertical center as the
average of the two left-edge y-values of the quadrilateral, i.e. of the
top-left and bottom-left corners under the documented ordering. -/
def leftEdgeVCenter (q : Quad) : ℚ := (q.p0.y + q.p3.y) / 2

/-- Modelled from the spec (claim C6 wording): the height as the absolute
difference of the two left-edge y-values. -/
def leftEdgeHeight (q : Quad) : ℚ := |q.p3.y - q.p0.y|

/-! Concrete fixtures used by the closed witness theorems. -/

/-- A 100x20 axis-aligned identifier box spanning x in [120, 220]. -/
def boxA : Quad := ⟨⟨120, 0⟩, ⟨220, 0⟩, ⟨220, 20⟩, ⟨120, 20⟩⟩

/-- A 50x20 axis-aligned name box spanning x in [0, 50]. -/
def boxB : Quad := ⟨⟨0, 0⟩, ⟨50, 0⟩, ⟨50, 20⟩, ⟨0, 20⟩⟩

/-- A non-axis-aligned quadrilateral whose bottom-right and bottom-left
corners have different y-values. -/
def quadSkew : Quad := ⟨⟨0, 0⟩, ⟨10, 0⟩, ⟨10, 10⟩, ⟨0, 14⟩⟩

/-- An axis-aligned quadrilateral (bottom corners share their y-value). -/
def quadRect : Quad := ⟨⟨0, 0⟩, ⟨10, 0⟩, ⟨10, 10⟩, ⟨0, 10⟩⟩

/-- A configuration with identifier prefix "px-" and threshold 0.5. -/
def cfgPx : AttendCheckConfig :=
  ⟨str "^px-\\d+$", str "px-", some defaultExclSearch, mkRat 1 2⟩

/-- The default configuration: empty identifier pattern and prefix. -/
def emptyCfg : AttendCheckConfig :=
  ⟨[], [], some defaultExclSearch, mkRat 1 2⟩

/-- An identifier token. -/
def wPx : WordPrediction := ⟨str "px-0000002", mkRat 9 10, boxA⟩

/-- A name token to the left of `wPx` on the same line. -/
def wNm : WordPrediction := ⟨str "山田", mkRat 9 10, boxB⟩

/-- An embedded-form token: name and identifier in one token. -/
def wEmb : WordPrediction := ⟨str "山田太郎(px-0000001)", mkRat 9 10, boxA⟩

/-- An embedded-form token whose name part contains a space. -/
def wFull : WordPrediction := ⟨str "山田 太郎(px-0000003)", mkRat 9 10, boxA⟩

/-- An identifier-bearing token below the confidence threshold. -/
def wLow : WordPrediction := ⟨str "px-1", mkRat 2 5, boxA⟩

/-- A bare digit run token, matched when the prefix is empty. -/
def wDigits : WordPrediction := ⟨str "1234", mkRat 9 10, boxB⟩

theorem qadd_eq (a b : ℚ) : qadd a b = a + b := by
  have ha : ((a.den : ℚ)) ≠ 0 := by exact_mod_cast a.den_ne_zero
  have hb : ((b.den : ℚ)) ≠ 0 := by exact_mod_cast b.den_ne_zero
  rw [qadd, Rat.mkRat_eq_div]
  push_cast
  conv_rhs => rw [← Rat.num_div_den a, ← Rat.num_div_den b]
  rw [div_add_div _ _ ha hb]
  ring_nf

theorem qsub_eq (a b : ℚ) : qsub a b = a - b := by
  have ha : ((a.den : ℚ)) ≠ 0 := by exact_mod_cast a.den_ne_zero
  have hb : ((b.den : ℚ)) ≠ 0 := by exact_mod_cast b.den_ne_zero
  rw [qsub, Rat.mkRat_eq_div]
  push_cast
  conv_rhs => rw [← Rat.num_div_den a, ← Rat.num_div_den b]
  rw [div_sub_div _ _ ha hb]
  ring_nf

theorem qmul_eq (a b : ℚ) : qmul a b = a * b := by
  rw [qmul, Rat.mkRat_eq_div]
  push_cast
  conv_rhs => rw [← Rat.num_div_den a, ← Rat.num_div_den b]
  rw [div_mul_div_comm]

theorem qdiv2_eq (a : ℚ) : qdiv2 a = a / 2 := by
  rw [qdiv2, Rat.mkRat_eq_div]
  push_cast
  conv_rhs => rw [← Rat.num_div_den a]
  rw [div_div]

theorem qabs_eq (a : ℚ) : qabs a = |a| := by
  have ha : (0 : ℚ) < (a.den : ℚ) := by exact_mod_cast a.pos
  rw [qabs, Rat.mkRat_eq_div]
  push_cast
  conv_rhs => rw [← Rat.num_div_den a]
  rw [abs_div, abs_of_pos ha]

theorem qmin_eq (a b : ℚ) : qmin a b = min a b := (min_def a b).symm

theorem qmax_eq (a b : ℚ) : qmax a b = max a b := (max_def a b).symm

theorem qdivN_eq (m n : ℕ) : qdivN m n = (m : ℚ) / (n : ℚ) := by
  rw [qdivN, Rat.mkRat_eq_div]
  push_cast
  ring

/-! Readable forms of the geometric helpers, in the ordinary `ℚ` operations
of the source. -/

theorem vCenter_eq (q : Quad) : vCenter q = (q.p0.y + q.p2.y) / 2 := by
  rw [vCenter, qadd_eq, qdiv2_eq]

theorem boxHeight_eq (q : Quad) : boxHeight q = |q.p2.y - q.p0.y| := by
  rw [boxHeight, qsub_eq, qabs_eq]

theorem leftX_eq (q : Quad) :
    leftX q = min (min (min q.p0.x q.p1.x) q.p2.x) q.p3.x := by
  rw [leftX, qmin_eq, qmin_eq, qmin_eq]

theorem rightX_eq (q : Quad) :
    rightX q = max (max (max q.p0.x q.p1.x) q.p2.x) q.p3.x := by
  rw [rightX, qmax_eq, qmax_eq, qmax_eq]

theorem firstDedupAux_spec :
    ∀ (l : List Str) (seen : List Str),
      (firstDedupAux seen l).Nodup ∧ ∀ x ∈ firstDedupAux seen l, x ∉ seen := by
  intro l
  induction l with
  | nil => intro seen; simp [firstDedupAux]
  | cons x t ih =>
    intro seen
    by_cases h : x ∈ seen
    · simpa [firstDedupAux, h] using ih seen
    · have hrec := ih (x :: seen)
      refine ⟨?_, ?_⟩
      · simp only [firstDedupAux, h, if_false, List.nodup_cons]
        exact ⟨fun hx => (hrec.2 x hx) (List.mem_cons_self x seen), hrec.1⟩
      · intro y hy
        simp only [firstDedupAux, h, if_false, List.mem_cons] at hy
        rcases hy with rfl | hy
        · exact h
        · intro hys
          exact (hrec.2 y hy) (List.mem_cons_of_mem x hys)

theorem extractLoop_map_id (excl : Option (Str → Bool)) (pre : Str)
    (fname : Str) (allWords : List WordPrediction) :
    ∀ (cands : List (WordPrediction × Nat × Str)) (seen : List Str),
      (extractLoop excl pre fname allWords cands seen).map
          (fun r => r.student_id_full)
        = firstDedupAux seen (cands.map (fun c => c.2.2)) := by
  intro cands
  induction cands with
  | nil => intro seen; rfl
  | cons c rest ih =>
    intro seen
    obtain ⟨w, i, m⟩ := c
    by_cases h : m ∈ seen
    · simp [extractLoop, firstDedupAux, h, ih]
    · simp [extractLoop, firstDedupAux, h, ih]

/-- C1: the `student_id_full` values of the records returned by one
extraction call are pairwise distinct, and they are exactly the
first-occurrence deduplication, in token scan order, of the identifier
strings matched by the confidence-passing candidates. -/
theorem claim_C1 (cfg : AttendCheckConfig) (words : List WordPrediction)
    (fname : Str) :
    ((extract cfg words fname).map (fun r => r.student_id_full)).Nodup ∧
    (extract cfg words fname).map (fun r => r.student_id_full)
      = firstDedup ((candidatesOf cfg.student_id_pre cfg.confidence_threshold
          words).map (fun c => c.2.2)) := by
  constructor
  · rw [extract, extractLoop_map_id]
    exact (firstDedupAux_spec _ _).1
  · rw [extract, extractLoop_map_id]
    rfl

theorem candidatesOf_score (pre : Str) (thr : ℚ) (words : List WordPrediction) :
    ∀ c ∈ candidatesOf pre thr words, thr ≤ c.1.rec_score := by
  intro c hc
  simp only [candidatesOf, List.mem_filterMap] at hc
  obtain ⟨w, hw, hfw⟩ := hc
  cases h : idSearch pre w.content with
  | none => rw [h] at hfw; simp at hfw
  | some im =>
    rw [h] at hfw
    by_cases hs : thr ≤ w.rec_score
    · simp only [if_pos hs, Option.some.injEq] at hfw
      rw [← hfw]
      exact hs
    · simp [hs] at hfw

theorem extractLoop_conf (excl : Option (Str → Bool)) (pre : Str) (fname : Str)
    (allWords : List WordPrediction) (thr : ℚ) :
    ∀ (cands : List (WordPrediction × Nat × Str)) (seen : List Str),
      (∀ c ∈ cands, thr ≤ c.1.rec_score) →
      ∀ r ∈ extractLoop excl pre fname allWords cands seen, thr ≤ r.confidence := by
  intro cands
  induction cands with
  | nil => intro seen _ r hr; simp [extractLoop] at hr
  | cons c rest ih =>
    intro seen hall r hr
    obtain ⟨w, i, m⟩ := c
    by_cases h : m ∈ seen
    · rw [extractLoop, if_pos h] at hr
      exact ih seen (fun c hc => hall c (List.mem_cons_of_mem _ hc)) r hr
    · rw [extractLoop, if_neg h] at hr
      rcases List.mem_cons.mp hr with rfl | hr2
      · exact hall (w, i, m) (List.mem_cons_self _ _)
      · exact ih (m :: seen) (fun c hc => hall c (List.mem_cons_of_mem _ hc)) r hr2

/-- C2: a token whose content matches the prefix-plus-digits search pattern
becomes an identifier candidate exactly when its confidence is at least the
configured threshold, and consequently every extracted record's confidence
(the confidence of the token that produced it) is at least the threshold,
so a matching token strictly below the threshold never produces a record. -/
theorem claim_C2 :
    (∀ (pre : Str) (thr : ℚ) (words : List WordPrediction) (w : WordPrediction),
      w ∈ words →
      ((∃ i m, (w, i, m) ∈ candidatesOf pre thr words) ↔
        ((idSearch pre w.content).isSome ∧ thr ≤ w.rec_score))) ∧
    (∀ (cfg : AttendCheckConfig) (words : List WordPrediction) (fname : Str)
      (r : StudentInfo), r ∈ extract cfg words fname →
        cfg.confidence_threshold ≤ r.confidence) := by
  constructor
  · intro pre thr words w hw
    constructor
    · rintro ⟨i, m, hmem⟩
      simp only [candidatesOf, List.mem_filterMap] at hmem
      obtain ⟨w2, hw2, hf⟩ := hmem
      cases h : idSearch pre w2.content with
      | none => rw [h] at hf; simp at hf
      | some im =>
        rw [h] at hf
        by_cases hs : thr ≤ w2.rec_score
        · simp only [if_pos hs, Option.some.injEq, Prod.mk.injEq] at hf
          obtain ⟨rfl, -⟩ := hf
          rw [h]
          exact ⟨rfl, hs⟩
        · simp [hs] at hf
    · rintro ⟨hsome, hs⟩
      obtain ⟨im, him⟩ := Option.isSome_iff_exists.mp hsome
      refine ⟨im.1, im.2, ?_⟩
      simp only [candidatesOf, List.mem_filterMap]
      exact ⟨w, hw, by rw [him]; simp [hs]⟩
  · intro cfg words fname r hr
    exact extractLoop_conf cfg.name_exclusion_search cfg.student_id_pre fname words
      cfg.confidence_threshold _ []
      (candidatesOf_score cfg.student_id_pre cfg.confidence_threshold words) r hr

/-- C2 witness: the low-confidence token `wLow` (score 0.4, threshold 0.5)
matches the search pattern but is not a candidate and produces no record;
a passing token's record has confidence at least the threshold. -/
theorem claim_C2_witness :
    wLow ∈ [wLow] ∧
    ((∃ i m, (wLow, i, m) ∈ candidatesOf (str "px-") (mkRat 1 2) [wLow]) ↔
      ((idSearch (str "px-") wLow.content).isSome ∧ (mkRat 1 2 : ℚ) ≤ wLow.rec_score)) ∧
    (idSearch (str "px-") wLow.content).isSome ∧
    ¬(∃ i m, (wLow, i, m) ∈ candidatesOf (str "px-") (mkRat 1 2) [wLow]) ∧
    extract cfgPx [wLow] [] = [] ∧
    cfgPx.confidence_threshold ≤
      (⟨str "px-0000002", str "0000002", [], [], [], mkRat 9 10, []⟩ :
        StudentInfo).confidence := by
  have hiff := claim_C2.1 (str "px-") (mkRat 1 2) [wLow] wLow (by decide)
  refine ⟨by decide, hiff, by decide, ?_, by decide,
    claim_C2.2 cfgPx [wPx] [] _ (by decide)⟩
  intro hex
  exact absurd (hiff.mp hex).2 (by decide)

/-- C3: when the stripped content before the identifier match (with one
trailing opening parenthesis removed and re-stripped) is non-empty, it is
the raw name, and the spatial left search is never consulted: the raw name
does not depend on the exclusion predicate, the prefix, or the other
tokens.  The spatial search runs only when this embedded result is empty. -/
theorem claim_C3 (excl excl2 : Option (Str → Bool)) (pre pre2 : Str)
    (w : WordPrediction) (i : Nat) (ws ws2 : List WordPrediction)
    (h : embeddedPre w.content i ≠ []) :
    rawNameOf excl pre w i ws = embeddedPre w.content i ∧
    rawNameOf excl pre w i ws = rawNameOf excl2 pre2 w i ws2 := by
  constructor <;> simp [rawNameOf, h]

/-- C3 witness: content `"山田太郎(px-0000001)"` with prefix `"px-"` matches
at offset 5, yields embedded raw name `"山田太郎"` with no spatial search,
and the extracted record carries `student_id_num = "0000001"`. -/
theorem claim_C3_witness :
    embeddedPre (str "山田太郎(px-0000001)") 5 ≠ [] ∧
    idSearch (str "px-") (str "山田太郎(px-0000001)") = some (5, str "px-0000001") ∧
    rawNameOf (some defaultExclSearch) (str "px-") wEmb 5 [wEmb] = str "山田太郎" ∧
    extract cfgPx [wEmb] [] =
      [⟨str "px-0000001", str "0000001", [], [], str "山田太郎", mkRat 9 10, []⟩] := by
  refine ⟨by decide, by decide, ?_, by decide⟩
  rw [(claim_C3 (some defaultExclSearch) (some defaultExclSearch) (str "px-")
    (str "px-") wEmb 5 [wEmb] [wEmb] (by decide)).1]
  decide

theorem qabs_qsub_eq (a b : ℚ) : qabs (qsub a b) = |a - b| := by
  rw [qsub_eq, qabs_eq]

theorem qmul_eight_tenths (h : ℚ) : qmul h (mkRat 8 10) = h * (8/10) := by
  rw [qmul_eq]
  congr 1
  rw [show (mkRat 8 10 : ℚ) = qdivN 8 10 from rfl, qdivN_eq]
  norm_num

/-- C4: a token other than the identifier token, not matching the
name-exclusion predicate and not containing the identifier prefix, is kept
as a spatial name candidate (paired with its rightmost x) exactly when the
absolute difference of its vertical center from the identifier vertical
center is strictly below 0.8 times the identifier box height and its
rightmost x is strictly below the identifier box leftmost x. -/
theorem claim_C4 (excl : Option (Str → Bool)) (pre : Str)
    (idW : WordPrediction) (ws : List WordPrediction) (w : WordPrediction)
    (hmem : w ∈ ws) (hne : w ≠ idW)
    (hexcl : exclMatches excl w.content = false)
    (hpre : ¬(pre ≠ [] ∧ isSubstrOf pre w.content)) :
    (w, rightX w.points) ∈ nameCandidates excl pre idW ws ↔
      (|vCenter w.points - vCenter idW.points| < boxHeight idW.points * (8/10) ∧
       rightX w.points < leftX idW.points) := by
  constructor
  · intro hc
    simp only [nameCandidates, List.mem_filterMap] at hc
    obtain ⟨w2, hw2, hf⟩ := hc
    rw [nameCandTest] at hf
    by_cases h1 : w2 = idW
    · rw [if_pos h1] at hf; simp at hf
    · rw [if_neg h1] at hf
      by_cases h2 : exclMatches excl w2.content = true
      · rw [if_pos h2] at hf; simp at hf
      · rw [if_neg h2] at hf
        by_cases h3 : pre ≠ [] ∧ isSubstrOf pre w2.content
        · rw [if_pos h3] at hf; simp at hf
        · rw [if_neg h3] at hf
          by_cases h4 : qabs (qsub (vCenter w2.points) (vCenter idW.points)) <
              qmul (boxHeight idW.points) (mkRat 8 10)
          · rw [if_pos h4] at hf
            by_cases h5 : rightX w2.points < leftX idW.points
            · rw [if_pos h5] at hf
              simp only [Option.some.injEq, Prod.mk.injEq] at hf
              obtain ⟨heq, -⟩ := hf
              subst heq
              rw [← qabs_qsub_eq, ← qmul_eight_tenths]
              exact ⟨h4, h5⟩
            · rw [if_neg h5] at hf; simp at hf
          · rw [if_neg h4] at hf; simp at hf
  · rintro ⟨h1, h2⟩
    simp only [nameCandidates, List.mem_filterMap]
    refine ⟨w, hmem, ?_⟩
    rw [nameCandTest, if_neg hne, if_neg (by simp [hexcl]), if_neg hpre,
      if_pos (by rw [qabs_qsub_eq, qmul_eight_tenths]; exact h1), if_pos h2]

/-- C4 witness: the name token `wNm` (x in [0,50]) and the identifier token
`wPx` (x in [120,220]) on the same line: `wNm` is kept as a candidate, and
the extraction attaches the name `"山田"` to identifier `"px-0000002"`. -/
theorem claim_C4_witness :
    wNm ∈ [wNm, wPx] ∧ wNm ≠ wPx ∧
    exclMatches (some defaultExclSearch) wNm.content = false ∧
    ¬((str "px-") ≠ [] ∧ isSubstrOf (str "px-") wNm.content) ∧
    (wNm, rightX wNm.points) ∈ nameCandidates (some defaultExclSearch) (str "px-") wPx [wNm, wPx] ∧
    findNameAtLeft (some defaultExclSearch) (str "px-") wPx [wNm, wPx] = str "山田" ∧
    extract cfgPx [wNm, wPx] [] =
      [⟨str "px-0000002", str "0000002", [], [], str "山田", mkRat 9 10, []⟩] := by
  refine ⟨by decide, by decide, by decide, by decide, ?_, by decide, by decide⟩
  refine (claim_C4 (some defaultExclSearch) (str "px-") wPx [wNm, wPx] wNm
    (by decide) (by decide) (by decide) (by decide)).mpr ⟨?_, by decide⟩
  rw [← qabs_qsub_eq, ← qmul_eight_tenths]
  decide

theorem qsub_gt_qmul_five (a b h : ℚ) : (qsub a b > qmul h 5) = (a - b > h * 5) := by
  rw [qsub_eq, qmul_eq]

theorem insertDescX_perm (a : WordPrediction × ℚ) (l : List (WordPrediction × ℚ)) :
    (insertDescX a l).Perm (a :: l) := by
  induction l with
  | nil => rfl
  | cons b t ih =>
    rw [insertDescX]
    split_ifs with hb
    · rfl
    · exact (ih.cons b).trans (List.Perm.swap a b t)

theorem insertDescX_sorted (a : WordPrediction × ℚ) (l : List (WordPrediction × ℚ))
    (h : l.Sorted (fun p q => q.2 ≤ p.2)) :
    (insertDescX a l).Sorted (fun p q => q.2 ≤ p.2) := by
  induction l with
  | nil => simp [insertDescX]
  | cons b t ih =>
    rw [List.sorted_cons] at h
    obtain ⟨hb, ht⟩ := h
    rw [insertDescX]
    split_ifs with hba
    · rw [List.sorted_cons]
      refine ⟨?_, (List.sorted_cons).mpr ⟨hb, ht⟩⟩
      intro x hx
      rcases List.mem_cons.mp hx with rfl | hx2
      · exact le_of_lt hba
      · exact (hb x hx2).trans (le_of_lt hba)
    · rw [List.sorted_cons]
      refine ⟨?_, ih ht⟩
      intro x hx
      rcases List.mem_cons.mp ((insertDescX_perm a t).mem_iff.mp hx) with rfl | hx2
      · exact not_lt.mp hba
      · exact hb x hx2

theorem sortDescX_perm (l : List (WordPrediction × ℚ)) : (sortDescX l).Perm l := by
  induction l with
  | nil => rfl
  | cons a t ih =>
    exact (insertDescX_perm a (sortDescX t)).trans (ih.cons a)

theorem sortDescX_sorted (l : List (WordPrediction × ℚ)) :
    (sortDescX l).Sorted (fun p q => q.2 ≤ p.2) := by
  induction l with
  | nil => simp [sortDescX]
  | cons a t ih => exact insertDescX_sorted a (sortDescX t) ih

theorem accumNames_len (idH : ℚ) :
    ∀ (cands : List (WordPrediction × ℚ)) (lastX : ℚ) (parts : List Str),
      parts.length ≤ 1 → (accumNames idH cands lastX parts).length ≤ 2 := by
  intro cands
  induction cands with
  | nil => intro lastX parts hp; rw [accumNames]; omega
  | cons c rest ih =>
    intro lastX parts hp
    obtain ⟨w, x⟩ := c
    simp only [accumNames]
    split_ifs with hgap hlen
    · omega
    · simp only [List.length_cons]; omega
    · exact ih (leftX w.points) (w.content :: parts)
        (by simp only [List.length_cons, ge_iff_le, not_le] at hlen ⊢; omega)

/-- C5: the spatial search sorts the candidates by rightmost x descending
(stably permuting them), and the greedy accumulation, started at the
identifier's leftmost x, stops as soon as the gap from the running boundary
to a candidate's rightmost x strictly exceeds five identifier box heights,
otherwise prepends the candidate content and moves the boundary to the
candidate's leftmost x, and never accumulates more than two tokens. -/
theorem claim_C5 (l : List (WordPrediction × ℚ)) (idH lastX : ℚ) :
    (sortDescX l).Perm l ∧
    (sortDescX l).Sorted (fun p q => q.2 ≤ p.2) ∧
    (accumNames idH l lastX []).length ≤ 2 ∧
    accumNames idH l lastX [] =
      (match l with
       | [] => []
       | (w1, x1) :: rest =>
         if lastX - x1 > idH * 5 then []
         else
           match rest with
           | [] => [w1.content]
           | (w2, x2) :: _ =>
             if leftX w1.points - x2 > idH * 5 then [w1.content]
             else [w2.content, w1.content]) := by
  have hchar : accumNames idH l lastX [] =
      (match l with
       | [] => []
       | (w1, x1) :: rest =>
         if lastX - x1 > idH * 5 then []
         else
           match rest with
           | [] => [w1.content]
           | (w2, x2) :: _ =>
             if leftX w1.points - x2 > idH * 5 then [w1.content]
             else [w2.content, w1.content]) := by
    cases l with
    | nil => rfl
    | cons c rest =>
      obtain ⟨w1, x1⟩ := c
      by_cases h1 : lastX - x1 > idH * 5
      · have h1q : qsub lastX x1 > qmul idH 5 := by rw [qsub_gt_qmul_five]; exact h1
        simp only [accumNames, if_pos h1q, if_pos h1]
      · have h1q : ¬(qsub lastX x1 > qmul idH 5) := by rw [qsub_gt_qmul_five]; exact h1
        cases rest with
        | nil => simp only [accumNames, if_neg h1q, if_neg h1]; rfl
        | cons c2 rest2 =>
          obtain ⟨w2, x2⟩ := c2
          by_cases h2 : leftX w1.points - x2 > idH * 5
          · have h2q : qsub (leftX w1.points) x2 > qmul idH 5 := by
              rw [qsub_gt_qmul_five]; exact h2
            simp only [accumNames, if_neg h1q, if_pos h2q, if_neg h1, if_pos h2]
            rfl
          · have h2q : ¬(qsub (leftX w1.points) x2 > qmul idH 5) := by
              rw [qsub_gt_qmul_five]; exact h2
            simp only [accumNames, if_neg h1q, if_neg h2q, if_neg h1, if_neg h2]
            rfl
  exact ⟨sortDescX_perm l, sortDescX_sorted l, accumNames_len idH l lastX [] (by simp), hchar⟩

/-- C6 counterexample: on the quadrilateral `quadSkew` (bottom-right y = 10,
bottom-left y = 14) the spatial search's vertical center and height differ
from the average and absolute difference of the two left-edge y-values
(top-left and bottom-left corners): the code computes 5 and 10, the
left-edge description gives 7 and 14. -/
theorem claim_C6_counterexample :
    vCenter quadSkew ≠ leftEdgeVCenter quadSkew ∧
    boxHeight quadSkew ≠ leftEdgeHeight quadSkew := by
  have h1 : vCenter quadSkew = 5 := by decide
  have h2 : boxHeight quadSkew = 10 := by decide
  have h3 : leftEdgeVCenter quadSkew = 7 := by
    simp only [leftEdgeVCenter, quadSkew]
    norm_num
  have h4 : leftEdgeHeight quadSkew = 14 := by
    simp only [leftEdgeHeight, quadSkew]
    norm_num
  rw [h1, h2, h3, h4]
  norm_num

/-- C6 (amended): the spatial search computes the identifier box's vertical
center as the average of the y-values of the first and third points of the
quadrilateral (top-left and bottom-right corners under the documented
ordering) and its height as the absolute difference of those same two
y-values; whenever the two bottom corners share their y-value this
coincides with the left-edge description of the claim. -/
theorem claim_C6 (q : Quad) :
    vCenter q = (q.p0.y + q.p2.y) / 2 ∧
    boxHeight q = |q.p2.y - q.p0.y| ∧
    (q.p2.y = q.p3.y →
      vCenter q = leftEdgeVCenter q ∧ boxHeight q = leftEdgeHeight q) := by
  refine ⟨vCenter_eq q, boxHeight_eq q, fun h => ?_⟩
  rw [vCenter_eq, boxHeight_eq, leftEdgeVCenter, leftEdgeHeight, h]
  exact ⟨rfl, rfl⟩

/-- C6 witness: on the axis-aligned `quadRect` the code's vertical center
and height agree with the left-edge description. -/
theorem claim_C6_witness :
    quadRect.p2.y = quadRect.p3.y ∧
    vCenter quadRect = leftEdgeVCenter quadRect ∧
    boxHeight quadRect = leftEdgeHeight quadRect :=
  ⟨by decide, ((claim_C6 quadRect).2.2 (by decide)).1, ((claim_C6 quadRect).2.2 (by decide)).2⟩

/-- C7: failing-input evaluation for the configuration-rejection claim.
The default configuration (empty `student_id_prefix` and
`student_id_pattern`) is accepted without any error and extraction
proceeds: with the empty prefix the search pattern degenerates to a bare
digit run, and the token `"1234"` produces a record.  No rejection of an
absent or empty prefix/pattern exists anywhere in the code. -/
theorem claim_C7 :
    extract emptyCfg [wDigits] [] =
      [⟨str "1234", str "1234", [], [], [], mkRat 9 10, []⟩] ∧
    emptyCfg.student_id_pre = [] ∧ emptyCfg.student_id_pattern = [] := by
  exact ⟨by decide, rfl, rfl⟩

/-- C8: for cleaned non-alphabetic name text that splits on whitespace runs
into two or more non-empty segments, the parser returns the first segment
as surname, the remaining segments concatenated with no separator as given
name, and the full name surname-space-given-name. -/
theorem claim_C8 (raw p q : Str) (rest : List Str)
    (halpha : isAlphaName (cleanName raw) = false)
    (hsplit : wordsWS (cleanName raw) = p :: q :: rest) :
    parseName raw = (p, joinAll (q :: rest), p ++ ' ' :: joinAll (q :: rest)) := by
  have hne : (cleanName raw).isEmpty = false := by
    cases hc : cleanName raw with
    | nil => rw [hc] at hsplit; exact absurd hsplit (by simp [wordsWS, wordsAux])
    | cons a t => rfl
  unfold parseName
  rw [if_neg (by simp [hne]), if_neg (by simp [halpha]), hsplit]

/-- C8 witness: parsing `"山田 太郎"` yields surname `"山田"`, given name
`"太郎"` and full name `"山田 太郎"`. -/
theorem claim_C8_witness :
    isAlphaName (cleanName (str "山田 太郎")) = false ∧
    wordsWS (cleanName (str "山田 太郎")) = [str "山田", str "太郎"] ∧
    parseName (str "山田 太郎") = (str "山田", str "太郎", str "山田 太郎") := by
  refine ⟨by decide, by decide, ?_⟩
  exact (claim_C8 (str "山田 太郎") (str "山田") (str "太郎") []
    (by decide) (by decide)).trans (by decide)

/-- C9: the parser classifies cleaned text as alphabetic exactly when the
ASCII-alphabetic character count strictly exceeds half the total character
count, and returns empty surname and given name with the cleaned text as
full name both in the alphabetic case and in the single-segment
(no internal whitespace) case. -/
theorem claim_C9 (raw : Str) :
    (isAlphaName (cleanName raw) = true ↔
      2 * asciiAlphaCount (cleanName raw) > (cleanName raw).length) ∧
    (isAlphaName (cleanName raw) = true → parseName raw = ([], [], cleanName raw)) ∧
    (isAlphaName (cleanName raw) = false →
      ∀ p, wordsWS (cleanName raw) = [p] → parseName raw = ([], [], cleanName raw)) := by
  refine ⟨?_, ?_, ?_⟩
  · by_cases hl : (cleanName raw).length > 0
    · have hn : (0 : ℚ) < ((cleanName raw).length : ℚ) := by exact_mod_cast hl
      simp only [isAlphaName, if_pos hl, decide_eq_true_eq]
      rw [qdivN_eq, show (mkRat 1 2 : ℚ) = 1/2 from by
        rw [show (mkRat 1 2 : ℚ) = qdivN 1 2 from rfl, qdivN_eq]; norm_num]
      rw [gt_iff_lt, lt_div_iff₀ hn]
      constructor
      · intro h
        have h2 : ((cleanName raw).length : ℚ) < 2 * (asciiAlphaCount (cleanName raw) : ℚ) := by
          linarith
        exact_mod_cast h2
      · intro h
        have h2 : ((cleanName raw).length : ℚ) < 2 * (asciiAlphaCount (cleanName raw) : ℚ) := by
          exact_mod_cast h
        linarith
    · have h0 : (cleanName raw).length = 0 := Nat.eq_zero_of_not_pos hl
      have ha : asciiAlphaCount (cleanName raw) = 0 := by
        have := List.length_filter_le (fun c => c.isAlpha) (cleanName raw)
        rw [asciiAlphaCount]
        omega
      simp [isAlphaName, hl, h0, ha]
  · intro h
    have hne : (cleanName raw).isEmpty = false := by
      cases hc : cleanName raw with
      | nil => rw [hc] at h; simp [isAlphaName] at h
      | cons a t => rfl
    unfold parseName
    rw [if_neg (by simp [hne]), if_pos h]
  · intro hfalse p hp
    have hne : (cleanName raw).isEmpty = false := by
      cases hc : cleanName raw with
      | nil => rw [hc] at hp; exact absurd hp (by simp [wordsWS, wordsAux])
      | cons a t => rfl
    unfold parseName
    rw [if_neg (by simp [hne]), if_neg (by simp [hfalse]), hp]

/-- C9 witness: `"Taro Yamada"` is classified alphabetic and kept whole;
`"山田太郎"` (one segment, not alphabetic) also yields only a full name. -/
theorem claim_C9_witness :
    isAlphaName (cleanName (str "Taro Yamada")) = true ∧
    parseName (str "Taro Yamada") = ([], [], cleanName (str "Taro Yamada")) ∧
    isAlphaName (cleanName (str "山田太郎")) = false ∧
    wordsWS (cleanName (str "山田太郎")) = [str "山田太郎"] ∧
    parseName (str "山田太郎") = ([], [], cleanName (str "山田太郎")) :=
  ⟨by decide, (claim_C9 (str "Taro Yamada")).2.1 (by decide), by decide, by decide,
    (claim_C9 (str "山田太郎")).2.2 (by decide) (str "山田太郎") (by decide)⟩

theorem wordsAux_ne_nil :
    ∀ (s : Str) (cur : Str), ∀ t ∈ wordsAux cur s, t ≠ [] := by
  intro s
  induction s with
  | nil =>
    intro cur t ht
    simp only [wordsAux] at ht
    split_ifs at ht with h
    · simp at ht
    · obtain rfl := List.mem_singleton.mp ht
      intro h0
      rw [List.reverse_eq_nil_iff] at h0
      rw [h0] at h
      exact h rfl
  | cons c s2 ih =>
    intro cur t ht
    simp only [wordsAux] at ht
    split_ifs at ht with hsp hcur
    · exact ih [] t ht
    · rcases List.mem_cons.mp ht with rfl | ht2
      · intro h0
        rw [List.reverse_eq_nil_iff] at h0
        rw [h0] at hcur
        exact hcur rfl
      · exact ih [] t ht2
    · exact ih (c :: cur) t ht

theorem joinAll_cons_ne_nil (q : Str) (rest : List Str) (hq : q ≠ []) :
    joinAll (q :: rest) ≠ [] := by
  rw [joinAll, List.flatten_cons]
  intro h
  exact hq (List.append_eq_nil.mp h).1

theorem parseName_shape (raw : Str) :
    ((parseName raw).1 = [] ∧ (parseName raw).2.1 = []) ∨
    ((parseName raw).1 ≠ [] ∧ (parseName raw).2.1 ≠ [] ∧
      (parseName raw).2.2 = (parseName raw).1 ++ ' ' :: (parseName raw).2.1) := by
  unfold parseName
  by_cases h1 : (cleanName raw).isEmpty
  · rw [if_pos h1]; left; exact ⟨rfl, rfl⟩
  · rw [if_neg h1]
    by_cases h2 : isAlphaName (cleanName raw)
    · rw [if_pos h2]; left; exact ⟨rfl, rfl⟩
    · rw [if_neg h2]
      cases hw : wordsWS (cleanName raw) with
      | nil => left; exact ⟨rfl, rfl⟩
      | cons p ptail =>
        cases ptail with
        | nil => left; exact ⟨rfl, rfl⟩
        | cons q rest =>
          right
          have hp : p ∈ wordsAux [] (cleanName raw) := by
            rw [show wordsAux [] (cleanName raw) = wordsWS (cleanName raw) from rfl, hw]
            exact List.mem_cons_self _ _
          have hq : q ∈ wordsAux [] (cleanName raw) := by
            rw [show wordsAux [] (cleanName raw) = wordsWS (cleanName raw) from rfl, hw]
            exact List.mem_cons_of_mem _ (List.mem_cons_self _ _)
          exact ⟨wordsAux_ne_nil (cleanName raw) [] p hp,
            joinAll_cons_ne_nil q rest (wordsAux_ne_nil (cleanName raw) [] q hq), rfl⟩

theorem extractLoop_shape (excl : Option (Str → Bool)) (pre : Str) (fname : Str)
    (allWords : List WordPrediction) :
    ∀ (cands : List (WordPrediction × Nat × Str)) (seen : List Str),
      ∀ r ∈ extractLoop excl pre fname allWords cands seen,
        (r.surname = [] ∧ r.name = []) ∨
        (r.surname ≠ [] ∧ r.name ≠ [] ∧
          r.full_name = r.surname ++ ' ' :: r.name) := by
  intro cands
  induction cands with
  | nil => intro seen r hr; simp [extractLoop] at hr
  | cons c rest ih =>
    intro seen r hr
    obtain ⟨w, i, m⟩ := c
    rw [extractLoop] at hr
    by_cases h : m ∈ seen
    · rw [if_pos h] at hr; exact ih seen r hr
    · rw [if_neg h] at hr
      rcases List.mem_cons.mp hr with rfl | hr2
      · exact parseName_shape (rawNameOf excl pre w i allWords)
      · exact ih (m :: seen) r hr2

/-- C10: in every extracted record the surname and given-name fields are
either both empty or both non-empty, and when non-empty the full name is
the surname, one ASCII space, and the given name. -/
theorem claim_C10 (cfg : AttendCheckConfig) (words : List WordPrediction)
    (fname : Str) (r : StudentInfo) (hr : r ∈ extract cfg words fname) :
    (r.surname = [] ∧ r.name = []) ∨
    (r.surname ≠ [] ∧ r.name ≠ [] ∧ r.full_name = r.surname ++ ' ' :: r.name) :=
  extractLoop_shape cfg.name_exclusion_search cfg.student_id_pre fname words
    (candidatesOf cfg.student_id_pre cfg.confidence_threshold words) [] r hr

/-- C10 witness: the record extracted from `"山田 太郎(px-0000003)"` has
non-empty surname and given name and the composed full name. -/
theorem claim_C10_witness :
    (⟨str "px-0000003", str "0000003", str "山田", str "太郎", str "山田 太郎",
      mkRat 9 10, []⟩ : StudentInfo) ∈ extract cfgPx [wFull] [] ∧
    (((⟨str "px-0000003", str "0000003", str "山田", str "太郎", str "山田 太郎",
        mkRat 9 10, []⟩ : StudentInfo).surname = [] ∧
      (⟨str "px-0000003", str "0000003", str "山田", str "太郎", str "山田 太郎",
        mkRat 9 10, []⟩ : StudentInfo).name = []) ∨
     ((⟨str "px-0000003", str "0000003", str "山田", str "太郎", str "山田 太郎",
        mkRat 9 10, []⟩ : StudentInfo).surname ≠ [] ∧
      (⟨str "px-0000003", str "0000003", str "山田", str "太郎", str "山田 太郎",
        mkRat 9 10, []⟩ : StudentInfo).name ≠ [] ∧
      (⟨str "px-0000003", str "0000003", str "山田", str "太郎", str "山田 太郎",
        mkRat 9 10, []⟩ : StudentInfo).full_name =
        (⟨str "px-0000003", str "0000003", str "山田", str "太郎", str "山田 太郎",
          mkRat 9 10, []⟩ : StudentInfo).surname ++ ' ' ::
        (⟨str "px-0000003", str "0000003", str "山田", str "太郎", str "山田 太郎",
          mkRat 9 10, []⟩ : StudentInfo).name)) :=
  ⟨by decide, claim_C10 cfgPx [wFull] [] _ (by decide)⟩
